import Mathlib

/-!
Verification of the LSB steganographic decoder of `src/prime.py`.

The script reads a pixel grid (rows of pixels, each pixel a list of integer
channel values), extracts the least significant bit of every channel value in
row-major / pixel-major / channel-major order into a bit string, groups the
bit string into 8-bit groups interpreted MSB-first (`int(byte, 2)`), maps each
group to the character with that code point (`chr`), and stops after 16
characters or when fewer than 8 bits remain, whichever comes first.
-/

namespace PrimePy

/-- A pixel is the ordered list of its integer channel values. -/
abbrev Pixel := List Int

/-- A row is an ordered list of pixels. -/
abbrev Row := List Pixel

/-- `pixels` in the script: an ordered list of rows. -/
abbrev PixelGrid := List Row

/-- `channel & 1` of the script.  Python's `& 1` on an arbitrary-precision
integer (negative included) is the mathematical residue mod 2, which is
`Int.emod` in Lean (always `0` or `1` for modulus `2`). -/
def lsb (c : Int) : Nat := (c % 2).toNat

/-- The bit string built by the triple loop
`for row in pixels: for pixel in row: for channel in pixel: bits += str(channel & 1)`,
modelled as the list of extracted bits in the same order. -/
def bits (g : PixelGrid) : List Nat :=
  (g.map (fun row => (row.map (fun pixel => pixel.map lsb)).flatten)).flatten

/-- `int(byte, 2)` where `byte` is a string of `0`/`1` characters read
MSB-first: fold each new bit into the low end. -/
def byteVal (bs : List Nat) : Nat :=
  bs.foldl (fun acc b => 2 * acc + b) 0

/-- The sequence of complete 8-bit groups of a bit string, each interpreted
MSB-first; trailing bits (fewer than 8) are dropped, exactly as the
`if len(byte) < 8: break` arm of the script's loop does.  The slice
`bits[i:i+8]` of length 8 is rendered as an 8-deep cons pattern so the
function is structurally recursive. -/
def toBytes : List Nat → List Nat
  | b0 :: b1 :: b2 :: b3 :: b4 :: b5 :: b6 :: b7 :: rest =>
      byteVal [b0, b1, b2, b3, b4, b5, b6, b7] :: toBytes rest
  | _ => []

/-- The message-assembly loop of the script, with the hard-coded character
count `16` generalised to a parameter `N` (`n` is `len(message)` before the
current append): `byte = bits[i:i+8]; if len(byte) < 8: break;
message += chr(int(byte, 2)); if len(message) == N: break`. -/
def decodeBytes (n N : Nat) : List Nat → List Char
  | b0 :: b1 :: b2 :: b3 :: b4 :: b5 :: b6 :: b7 :: rest =>
      let c := Char.ofNat (byteVal [b0, b1, b2, b3, b4, b5, b6, b7])
      if n + 1 = N then [c]
      else c :: decodeBytes (n + 1) N rest
  | _ => []

/-- The decoder with a configurable fixed character count. -/
def decodeWith (N : Nat) (g : PixelGrid) : List Char :=
  decodeBytes 0 N (bits g)

/-- `message` as computed by the script: the hard-coded cutoff is 16. -/
def message (g : PixelGrid) : List Char :=
  decodeBytes 0 16 (bits g)

/-- Pointwise congruence mod 2 of two pixels' channel lists (same length,
corresponding channel values with equal parity). -/
def pixCong : Pixel → Pixel → Bool
  | [], [] => true
  | a :: p, b :: q => (a % 2 == b % 2) && pixCong p q
  | _, _ => false

/-- Pointwise congruence mod 2 of two rows. -/
def rowCong : Row → Row → Bool
  | [], [] => true
  | p :: r, q :: s => pixCong p q && rowCong r s
  | _, _ => false

/-- Pointwise congruence mod 2 of two grids: same shape, and corresponding
channel values congruent mod 2. -/
def gridCong : PixelGrid → PixelGrid → Bool
  | [], [] => true
  | r :: g, s :: h => rowCong r s && gridCong g h
  | _, _ => false

end PrimePy

namespace PrimePy

/-- A list of length at least 8 starts with 8 explicit elements. -/
theorem exists_cons8 {bs : List Nat} (h : 8 ≤ bs.length) :
    ∃ b0 b1 b2 b3 b4 b5 b6 b7 rest,
      bs = b0 :: b1 :: b2 :: b3 :: b4 :: b5 :: b6 :: b7 :: rest := by
  rcases bs with _ | ⟨b0, bs⟩; · simp at h
  rcases bs with _ | ⟨b1, bs⟩; · simp at h
  rcases bs with _ | ⟨b2, bs⟩; · simp at h
  rcases bs with _ | ⟨b3, bs⟩; · simp at h
  rcases bs with _ | ⟨b4, bs⟩; · simp at h
  rcases bs with _ | ⟨b5, bs⟩; · simp at h
  rcases bs with _ | ⟨b6, bs⟩; · simp at h
  rcases bs with _ | ⟨b7, bs⟩; · simp at h
  exact ⟨b0, b1, b2, b3, b4, b5, b6, b7, bs, rfl⟩

/-- Fewer than 8 bits produce no byte. -/
theorem toBytes_nil_of_lt {bs : List Nat} (h : bs.length < 8) : toBytes bs = [] := by
  rcases bs with _ | ⟨b0, bs⟩; · rfl
  rcases bs with _ | ⟨b1, bs⟩; · rfl
  rcases bs with _ | ⟨b2, bs⟩; · rfl
  rcases bs with _ | ⟨b3, bs⟩; · rfl
  rcases bs with _ | ⟨b4, bs⟩; · rfl
  rcases bs with _ | ⟨b5, bs⟩; · rfl
  rcases bs with _ | ⟨b6, bs⟩; · rfl
  rcases bs with _ | ⟨b7, bs⟩; · rfl
  simp only [List.length_cons] at h
  omega

/-- `toBytes` peels its first complete 8-bit group, phrased with
`take`/`drop` as in the source's slicing. -/
theorem toBytes_eq_take {bs : List Nat} (h : 8 ≤ bs.length) :
    toBytes bs = byteVal (bs.take 8) :: toBytes (bs.drop 8) := by
  obtain ⟨b0, b1, b2, b3, b4, b5, b6, b7, rest, rfl⟩ := exists_cons8 h
  rfl

/-- Fewer than 8 bits produce no character, for any policy state. -/
theorem decodeBytes_nil_of_lt (n N : Nat) {bs : List Nat} (h : bs.length < 8) :
    decodeBytes n N bs = [] := by
  rcases bs with _ | ⟨b0, bs⟩; · rfl
  rcases bs with _ | ⟨b1, bs⟩; · rfl
  rcases bs with _ | ⟨b2, bs⟩; · rfl
  rcases bs with _ | ⟨b3, bs⟩; · rfl
  rcases bs with _ | ⟨b4, bs⟩; · rfl
  rcases bs with _ | ⟨b5, bs⟩; · rfl
  rcases bs with _ | ⟨b6, bs⟩; · rfl
  rcases bs with _ | ⟨b7, bs⟩; · rfl
  simp only [List.length_cons] at h
  omega

/-- `decodeBytes` peels its first complete 8-bit group, phrased with
`take`/`drop` as in the source's slicing. -/
theorem decodeBytes_eq (n N : Nat) {bs : List Nat} (h : 8 ≤ bs.length) :
    decodeBytes n N bs =
      if n + 1 = N then [Char.ofNat (byteVal (bs.take 8))]
      else Char.ofNat (byteVal (bs.take 8)) :: decodeBytes (n + 1) N (bs.drop 8) := by
  obtain ⟨b0, b1, b2, b3, b4, b5, b6, b7, rest, rfl⟩ := exists_cons8 h
  rfl

/-- The fused assembly-and-cutoff loop agrees with cutting the full byte
sequence after `N - n` further bytes and mapping `chr` over it. -/
theorem decodeBytes_eq_map_take :
    ∀ (L : Nat) (bs : List Nat), bs.length ≤ L → ∀ (n N : Nat), n < N →
      decodeBytes n N bs = ((toBytes bs).take (N - n)).map Char.ofNat := by
  intro L
  induction L with
  | zero =>
    intro bs hL n N _
    have h8 : bs.length < 8 := by omega
    rw [decodeBytes_nil_of_lt _ _ h8, toBytes_nil_of_lt h8]
    simp
  | succ L ih =>
    intro bs hL n N hnN
    rcases Nat.lt_or_ge bs.length 8 with h8 | h8
    · rw [decodeBytes_nil_of_lt _ _ h8, toBytes_nil_of_lt h8]
      simp
    · rw [decodeBytes_eq _ _ h8, toBytes_eq_take h8]
      by_cases hn : n + 1 = N
      · rw [if_pos hn]
        have hN : N - n = 1 := by omega
        rw [hN]
        rfl
      · rw [if_neg hn]
        have h1 : n + 1 < N := by omega
        have hL' : (bs.drop 8).length ≤ L := by
          simp only [List.length_drop]; omega
        rw [ih (bs.drop 8) hL' (n + 1) N h1]
        have hN : N - n = (N - (n + 1)) + 1 := by omega
        rw [hN]
        simp

/-- The number of assembled bytes is the bit count divided by 8
(integer division): trailing bits are dropped. -/
theorem toBytes_length : ∀ (L : Nat) (bs : List Nat), bs.length ≤ L →
    (toBytes bs).length = bs.length / 8 := by
  intro L
  induction L with
  | zero =>
    intro bs hL
    have h8 : bs.length < 8 := by omega
    rw [toBytes_nil_of_lt h8]
    simp [Nat.div_eq_of_lt h8]
  | succ L ih =>
    intro bs hL
    rcases Nat.lt_or_ge bs.length 8 with h8 | h8
    · rw [toBytes_nil_of_lt h8]
      simp [Nat.div_eq_of_lt h8]
    · rw [toBytes_eq_take h8]
      have hL' : (bs.drop 8).length ≤ L := by
        simp only [List.length_drop]; omega
      rw [List.length_cons, ih (bs.drop 8) hL', List.length_drop,
        Nat.div_eq_sub_div (by omega) h8]

/-- The `k`-th assembled byte is the MSB-first value of bits `8k .. 8k+7`. -/
theorem toBytes_getElem? :
    ∀ (k : Nat) (bs : List Nat), 8 * (k + 1) ≤ bs.length →
      (toBytes bs)[k]? = some (byteVal ((bs.drop (8 * k)).take 8)) := by
  intro k
  induction k with
  | zero =>
    intro bs h
    have h8 : 8 ≤ bs.length := by omega
    rw [toBytes_eq_take h8]
    simp
  | succ k ih =>
    intro bs h
    have h8 : 8 ≤ bs.length := by omega
    rw [toBytes_eq_take h8]
    have hlen : 8 * (k + 1) ≤ (bs.drop 8).length := by
      simp only [List.length_drop]; omega
    have harith : 8 + 8 * k = 8 * (k + 1) := by ring
    simp only [List.getElem?_cons_succ, ih (bs.drop 8) hlen, List.drop_drop, harith]

/-- The first `N` assembled bytes are determined by the first `8N` bits. -/
theorem toBytes_take_eq :
    ∀ (L : Nat) (bs : List Nat), bs.length ≤ L → ∀ (N : Nat),
      (toBytes bs).take N = (toBytes (bs.take (8 * N))).take N := by
  intro L
  induction L with
  | zero =>
    intro bs hL N
    have hnil : bs = [] := List.length_eq_zero.mp (by omega)
    subst hnil
    simp
  | succ L ih =>
    intro bs hL N
    rcases Nat.lt_or_ge bs.length 8 with h8 | h8
    · have : bs.take (8 * N) = bs ∨ toBytes (bs.take (8 * N)) = [] := by
        rcases N with _ | M
        · right
          simp [toBytes]
        · left
          exact List.take_of_length_le (by omega)
      rcases this with h | h
      · rw [h]
      · rw [toBytes_nil_of_lt h8, h]
    · rcases N with _ | M
      · simp
      · have htlen : 8 ≤ (bs.take (8 * (M + 1))).length := by
          simp only [List.length_take]
          omega
        rw [toBytes_eq_take h8, toBytes_eq_take htlen]
        have h1 : (bs.take (8 * (M + 1))).take 8 = bs.take 8 := by
          rw [List.take_take]
          congr 1
          omega
        have h2 : (bs.take (8 * (M + 1))).drop 8 = (bs.drop 8).take (8 * M) := by
          rw [List.drop_take]
          congr 1
        rw [h1, h2]
        simp only [List.take_succ_cons]
        congr 1
        have hL' : (bs.drop 8).length ≤ L := by
          simp only [List.length_drop]; omega
        exact ih (bs.drop 8) hL' M

/-- Appending fewer than 8 bits to a byte-aligned bit string adds no byte. -/
theorem toBytes_append_small :
    ∀ (L : Nat) (bs t : List Nat), bs.length ≤ L → bs.length % 8 = 0 →
      t.length < 8 → toBytes (bs ++ t) = toBytes bs := by
  intro L
  induction L with
  | zero =>
    intro bs t hL _ ht
    have hnil : bs = [] := List.length_eq_zero.mp (by omega)
    subst hnil
    simp only [List.nil_append]
    rw [toBytes_nil_of_lt ht, toBytes_nil_of_lt (by simp)]
  | succ L ih =>
    intro bs t hL hmod ht
    rcases Nat.lt_or_ge bs.length 8 with h8 | h8
    · have hnil : bs = [] := List.length_eq_zero.mp (by omega)
      subst hnil
      simp only [List.nil_append]
      rw [toBytes_nil_of_lt ht, toBytes_nil_of_lt (by simp)]
    · have happ : 8 ≤ (bs ++ t).length := by
        simp only [List.length_append]; omega
      rw [toBytes_eq_take happ, toBytes_eq_take h8,
        List.take_append_of_le_length h8, List.drop_append_of_le_length h8]
      congr 1
      have hL' : (bs.drop 8).length ≤ L := by
        simp only [List.length_drop]; omega
      have hmod' : (bs.drop 8).length % 8 = 0 := by
        simp only [List.length_drop]; omega
      exact ih (bs.drop 8) t hL' hmod' ht

/-- Folding bits into an accumulator keeps the value under `(a+1) * 2^len`. -/
theorem byteVal_foldl_lt (bs : List Nat) :
    ∀ (a : Nat), (∀ b ∈ bs, b ≤ 1) →
      bs.foldl (fun acc b => 2 * acc + b) a < (a + 1) * 2 ^ bs.length := by
  induction bs with
  | nil =>
    intro a _
    simp
  | cons b bs ih =>
    intro a hmem
    have hb : b ≤ 1 := hmem b (List.mem_cons_self b bs)
    have hrest : ∀ x ∈ bs, x ≤ 1 := fun x hx => hmem x (List.mem_cons_of_mem b hx)
    calc (b :: bs).foldl (fun acc x => 2 * acc + x) a
        = bs.foldl (fun acc x => 2 * acc + x) (2 * a + b) := by simp
      _ < (2 * a + b + 1) * 2 ^ bs.length := ih (2 * a + b) hrest
      _ ≤ (a + 1) * 2 ^ (b :: bs).length := by
          simp only [List.length_cons, pow_succ]
          have : 2 * a + b + 1 ≤ (a + 1) * 2 := by omega
          calc (2 * a + b + 1) * 2 ^ bs.length
              ≤ (a + 1) * 2 * 2 ^ bs.length := Nat.mul_le_mul_right _ this
            _ = (a + 1) * (2 ^ bs.length * 2) := by ring

/-- An MSB-first byte value of a 0/1 bit list is below `2^len`. -/
theorem byteVal_lt (bs : List Nat) (h : ∀ b ∈ bs, b ≤ 1) :
    byteVal bs < 2 ^ bs.length := by
  have := byteVal_foldl_lt bs 0 h
  simpa [byteVal] using this

/-- Every byte assembled from a 0/1 bit string is in `0 .. 255`. -/
theorem toBytes_mem_lt :
    ∀ (L : Nat) (bs : List Nat), bs.length ≤ L → (∀ x ∈ bs, x ≤ 1) →
      ∀ b ∈ toBytes bs, b < 256 := by
  intro L
  induction L with
  | zero =>
    intro bs hL _ b hb
    have h8 : bs.length < 8 := by omega
    rw [toBytes_nil_of_lt h8] at hb
    simp at hb
  | succ L ih =>
    intro bs hL hbits b hb
    rcases Nat.lt_or_ge bs.length 8 with h8 | h8
    · rw [toBytes_nil_of_lt h8] at hb
      simp at hb
    · rw [toBytes_eq_take h8] at hb
      rcases List.mem_cons.mp hb with h | h
      · subst h
        have htake : (bs.take 8).length = 8 := by
          simp only [List.length_take]; omega
        have := byteVal_lt (bs.take 8)
          (fun x hx => hbits x (List.take_subset 8 bs hx))
        rw [htake] at this
        exact this
      · have hL' : (bs.drop 8).length ≤ L := by
          simp only [List.length_drop]; omega
        exact ih (bs.drop 8) hL'
          (fun x hx => hbits x (List.drop_subset 8 bs hx)) b h

/-- An extracted LSB is 0 or 1. -/
theorem lsb_le_one (c : Int) : lsb c ≤ 1 := by
  unfold lsb
  rcases Int.emod_two_eq_zero_or_one c with h | h <;> rw [h] <;> decide

/-- Every element of the extracted bit string is 0 or 1. -/
theorem bits_le_one (g : PixelGrid) : ∀ x ∈ bits g, x ≤ 1 := by
  intro x hx
  simp only [bits, List.mem_flatten, List.mem_map] at hx
  obtain ⟨_, ⟨row, ⟨_, rfl⟩⟩, hx⟩ := hx
  simp only [List.mem_flatten, List.mem_map] at hx
  obtain ⟨_, ⟨pixel, ⟨_, rfl⟩⟩, hx⟩ := hx
  simp only [List.mem_map] at hx
  obtain ⟨c, _, rfl⟩ := hx
  exact lsb_le_one c

/-- Indexing the concatenation of equal-length blocks. -/
theorem flatten_getElem?_uniform {α : Type} :
    ∀ (ls : List (List α)) (m : Nat), (∀ l ∈ ls, l.length = m) →
      ∀ (i j : Nat), j < m →
        ls.flatten[i * m + j]? = ls[i]?.bind (fun l => l[j]?) := by
  intro ls
  induction ls with
  | nil =>
    intro m _ i j _
    simp
  | cons l ls ih =>
    intro m hu i j hj
    have hl : l.length = m := hu l (List.mem_cons_self l ls)
    rcases i with _ | i
    · simp only [List.flatten_cons, Nat.zero_mul, Nat.zero_add]
      rw [List.getElem?_append_left (by omega)]
      simp
    · simp only [List.flatten_cons]
      have harith : (i + 1) * m + j = (i * m + j) + m := by ring
      rw [List.getElem?_append_right (by omega)]
      simp only [List.getElem?_cons_succ, hl]
      rw [show (i + 1) * m + j - m = i * m + j by omega]
      exact ih m (fun x hx => hu x (List.mem_cons_of_mem l hx)) i j hj

/-- Summing a constant-valued map. -/
theorem sum_map_const {α : Type} :
    ∀ (l : List α) (f : α → Nat) (k : Nat), (∀ x ∈ l, f x = k) →
      (l.map f).sum = l.length * k := by
  intro l f k
  induction l with
  | nil => intro _; simp
  | cons x l ih =>
    intro h
    simp only [List.map_cons, List.sum_cons, List.length_cons,
      h x (List.mem_cons_self x l), ih fun y hy => h y (List.mem_cons_of_mem x hy)]
    ring

/-- `chr` of a byte value below 256 has exactly that code point. -/
theorem toNat_charOfNat {b : Nat} (h : b < 256) : (Char.ofNat b).toNat = b := by
  have hv : b.isValidChar := Or.inl (by omega)
  rw [Char.ofNat, dif_pos hv]
  simp [Char.ofNatAux, Char.toNat, UInt32.toNat]

/-- Parity-congruent pixels extract identical bit lists. -/
theorem pixCong_map_lsb :
    ∀ (p q : Pixel), pixCong p q = true → p.map lsb = q.map lsb := by
  intro p
  induction p with
  | nil =>
    intro q h
    cases q
    · rfl
    · simp [pixCong] at h
  | cons a p ih =>
    intro q h
    cases q with
    | nil => simp [pixCong] at h
    | cons b q =>
      simp only [pixCong, Bool.and_eq_true, beq_iff_eq] at h
      simp only [List.map_cons, ih q h.2, List.cons.injEq, and_true]
      unfold lsb
      rw [h.1]

/-- Parity-congruent rows extract identical bit lists. -/
theorem rowCong_bits :
    ∀ (r s : Row), rowCong r s = true →
      (r.map (fun pixel => pixel.map lsb)).flatten
        = (s.map (fun pixel => pixel.map lsb)).flatten := by
  intro r
  induction r with
  | nil =>
    intro s h
    cases s
    · rfl
    · simp [rowCong] at h
  | cons p r ih =>
    intro s h
    cases s with
    | nil => simp [rowCong] at h
    | cons q s =>
      simp only [rowCong, Bool.and_eq_true] at h
      simp only [List.map_cons, List.flatten_cons, pixCong_map_lsb p q h.1, ih s h.2]

/-- Parity-congruent grids extract identical bit strings. -/
theorem gridCong_bits :
    ∀ (g h : PixelGrid), gridCong g h = true → bits g = bits h := by
  intro g
  induction g with
  | nil =>
    intro h hc
    cases h
    · rfl
    · simp [gridCong] at hc
  | cons r g ih =>
    intro h hc
    cases h with
    | nil => simp [gridCong] at hc
    | cons s h =>
      simp only [gridCong, Bool.and_eq_true] at hc
      simp only [bits, List.map_cons, List.flatten_cons]
      have h1 := rowCong_bits r s hc.1
      have h2 := ih h hc.2
      simp only [bits] at h2
      rw [h1, h2]

/-- A row of pixels with uniform channel count `C` contributes
`row.length * C` bits. -/
theorem row_bits_length (row : Row) (C : Nat)
    (hC : ∀ pixel ∈ row, pixel.length = C) :
    ((row.map (fun pixel => pixel.map lsb)).flatten).length = row.length * C := by
  rw [List.length_flatten, List.map_map]
  exact sum_map_const row _ C (by
    intro pixel hpixel
    simp [List.length_map, hC pixel hpixel])

/-- In a rectangular grid the bit string has one bit per channel:
`rows * pixels-per-row * channels`. -/
theorem bits_length_rect (g : PixelGrid) (P C : Nat)
    (hP : ∀ row ∈ g, row.length = P)
    (hC : ∀ row ∈ g, ∀ pixel ∈ row, pixel.length = C) :
    (bits g).length = g.length * P * C := by
  rw [bits, List.length_flatten, List.map_map]
  have := sum_map_const g
    (fun row => ((row.map (fun pixel => pixel.map lsb)).flatten).length) (P * C)
    (by
      intro row hrow
      show ((row.map (fun pixel => pixel.map lsb)).flatten).length = P * C
      rw [row_bits_length row C (hC row hrow), hP row hrow])
  simp only [Function.comp_def]
  rw [this, Nat.mul_assoc]

/-- The bit at linear position `(r*P + p)*C + c` of a rectangular grid's bit
string is the LSB of channel `c` of pixel `p` of row `r`. -/
theorem bits_getElem?_rect (g : PixelGrid) (P C : Nat)
    (hP : ∀ row ∈ g, row.length = P)
    (hC : ∀ row ∈ g, ∀ pixel ∈ row, pixel.length = C)
    (r p c : Nat) (hp : p < P) (hc : c < C) :
    (bits g)[(r * P + p) * C + c]? =
      (g[r]?.bind fun row => row[p]?.bind fun pixel => pixel[c]?).map lsb := by
  have hj : p * C + c < P * C := by
    calc p * C + c < p * C + C := by omega
      _ = (p + 1) * C := by ring
      _ ≤ P * C := Nat.mul_le_mul_right C hp
  have hidx : (r * P + p) * C + c = r * (P * C) + (p * C + c) := by ring
  rw [bits, hidx]
  rw [flatten_getElem?_uniform (g.map fun row => (row.map fun pixel => pixel.map lsb).flatten)
    (P * C)
    (by
      intro l hl
      rcases List.mem_map.mp hl with ⟨row, hrow, rfl⟩
      rw [row_bits_length row C (hC row hrow), hP row hrow])
    r (p * C + c) hj]
  rw [List.getElem?_map]
  rcases hgr : g[r]? with _ | row
  · simp
  · have hrowmem : row ∈ g := List.getElem?_mem hgr
    simp only [Option.map_some', Option.some_bind]
    rw [flatten_getElem?_uniform (row.map fun pixel => pixel.map lsb) C
      (by
        intro l hl
        rcases List.mem_map.mp hl with ⟨pixel, hpixel, rfl⟩
        rw [List.length_map]
        exact hC row hrowmem pixel hpixel)
      p c hc]
    rw [List.getElem?_map]
    rcases hrp : row[p]? with _ | pixel
    · simp
    · simp [List.getElem?_map]

/-- `message` in closed form: `chr` mapped over the first 16 assembled bytes. -/
theorem message_eq_map_take (g : PixelGrid) :
    message g = ((toBytes (bits g)).take 16).map Char.ofNat := by
  have := decodeBytes_eq_map_take (bits g).length (bits g) le_rfl 0 16 (by omega)
  simpa [message] using this

/-- `decodeWith` in closed form, for a positive character budget. -/
theorem decodeWith_eq_map_take (N : Nat) (g : PixelGrid) (h : 0 < N) :
    decodeWith N g = ((toBytes (bits g)).take N).map Char.ofNat := by
  have := decodeBytes_eq_map_take (bits g).length (bits g) le_rfl 0 N h
  simpa [decodeWith] using this

/-- LSB extraction only sees a channel value's residue mod 2. -/
theorem lsb_emod (c : Int) : lsb (c % 2) = lsb c := by
  unfold lsb
  rw [Int.emod_emod_of_dvd c (dvd_refl 2)]

/-- C1, counterexample: in the 9-bit stream `0,0,1,0,0,1,0,0,0` the pattern
`0,1,0,0,1,0,0,0` occurs at (non-byte-aligned) position 1, yet the decoder
emits only the byte assembled at position 0, which is `0x24` = `'$'`; no `'H'`
is ever appended. -/
theorem C1_counterexample :
    ((bits [[[0, 0, 1], [0, 0, 1], [0, 0, 0]]]).drop 1).take 8
        = [0, 1, 0, 0, 1, 0, 0, 0] ∧
      message [[[0, 0, 1], [0, 0, 1], [0, 0, 0]]] = ['$'] ∧
      'H' ∉ message [[[0, 0, 1], [0, 0, 1], [0, 0, 0]]] := by
  decide

/-- C1, amended: at every byte-aligned position `8*k` of the scanned bit
sequence with `k` below the 16-character cutoff, if the next 8 consecutive
bits are `0,1,0,0,1,0,0,0` (whether or not `8*k` falls on a pixel boundary),
the decoder assembles them MSB-first into `0x48` and the `k`-th message
character is `'H'`. -/
theorem C1_aligned_H (g : PixelGrid) (k : Nat) (hk : k < 16)
    (hpat : ((bits g).drop (8 * k)).take 8 = [0, 1, 0, 0, 1, 0, 0, 0]) :
    (message g)[k]? = some 'H' := by
  have hlen : 8 * (k + 1) ≤ (bits g).length := by
    have := congrArg List.length hpat
    simp only [List.length_take, List.length_drop, List.length_cons,
      List.length_nil] at this
    omega
  rw [message_eq_map_take, List.getElem?_map, List.getElem?_take_of_lt hk,
    toBytes_getElem? k (bits g) hlen, hpat]
  decide

/-- C1 witness: a 3-pixel RGB row whose LSBs are `0,1,0,0,1,0,0,0` followed by
one spare bit decodes its first character to `'H'`. -/
theorem C1_aligned_H_witness :
    (message [[[0, 1, 0], [0, 1, 0], [0, 0, 0]]])[0]? = some 'H' :=
  C1_aligned_H [[[0, 1, 0], [0, 1, 0], [0, 0, 0]]] 0 (by decide) (by decide)

set_option maxRecDepth 8000 in
/-- C2, counterexample: a grid of 137 one-channel pixels yields a 137-bit
stream; `137 = 17*8 + 1`, so the claimed byte count is `floor(137/8) = 17`,
but the decoder stops at the 16-character cutoff and assembles only 16. -/
theorem C2_counterexample :
    (bits [List.replicate 137 ([1] : Pixel)]).length = 137 ∧
      137 % 8 ≠ 0 ∧
      (message [List.replicate 137 ([1] : Pixel)]).length = 16 ∧
      (message [List.replicate 137 ([1] : Pixel)]).length ≠ 137 / 8 := by
  decide

/-- C2, amended: the decoded message has `min (floor(L/8)) 16` characters,
where `L` is the scanned bit count (the 16-character default cutoff also
bounds it); the trailing `L mod 8` bits are silently discarded — appending
fewer than 8 bits to a byte-aligned stream never changes the output, and no
error is possible (the decoder is a total function). -/
theorem C2_truncation :
    (∀ g : PixelGrid, (message g).length = min ((bits g).length / 8) 16) ∧
      ∀ (bs t : List Nat), bs.length % 8 = 0 → t.length < 8 →
        decodeBytes 0 16 (bs ++ t) = decodeBytes 0 16 bs := by
  constructor
  · intro g
    rw [message_eq_map_take, List.length_map, List.length_take,
      toBytes_length (bits g).length (bits g) le_rfl, Nat.min_comm]
  · intro bs t hmod ht
    have h8 : 0 < 16 := by omega
    have h1 := decodeBytes_eq_map_take (bs ++ t).length (bs ++ t) le_rfl 0 16 h8
    have h2 := decodeBytes_eq_map_take bs.length bs le_rfl 0 16 h8
    rw [h1, h2, toBytes_append_small bs.length bs t le_rfl hmod ht]

/-- C2 witness: an 11-bit grid decodes to `min (11/8) 16 = 1` character, and
appending 3 stray bits to an aligned 8-bit stream leaves the output unchanged. -/
theorem C2_truncation_witness :
    (message [[[1, 1, 1], [1, 1, 1], [1, 1, 1]], [[1, 1]]]).length
        = min ((bits [[[1, 1, 1], [1, 1, 1], [1, 1, 1]], [[1, 1]]]).length / 8) 16 ∧
      decodeBytes 0 16 ([0, 1, 0, 0, 1, 0, 0, 0] ++ [1, 1, 1])
        = decodeBytes 0 16 [0, 1, 0, 0, 1, 0, 0, 0] :=
  ⟨C2_truncation.1 [[[1, 1, 1], [1, 1, 1], [1, 1, 1]], [[1, 1]]],
    C2_truncation.2 [0, 1, 0, 0, 1, 0, 0, 0] [1, 1, 1] (by decide) (by decide)⟩

/-- C3: the decoder is the fixed-count policy instantiated at the default
`N = 16`; for any positive `N`, decoding stops after exactly
`min (floor(L/8)) N` characters and its output is a function of the first
`8*N` scanned bits only, independent of everything after them; in particular
any stream whose first 16 bits encode `0x48, 0x69` decodes under `N = 2` to
`"Hi"`, ignoring all remaining bits. -/
theorem C3_fixed_count :
    (∀ g : PixelGrid, message g = decodeWith 16 g) ∧
      (∀ (N : Nat) (g : PixelGrid), 0 < N →
        (decodeWith N g).length = min ((bits g).length / 8) N ∧
          ∀ g' : PixelGrid, (bits g).take (8 * N) = (bits g').take (8 * N) →
            decodeWith N g = decodeWith N g') ∧
      ∀ bs : List Nat,
        bs.take 16 = [0, 1, 0, 0, 1, 0, 0, 0, 0, 1, 1, 0, 1, 0, 0, 1] →
          decodeBytes 0 2 bs = ['H', 'i'] := by
  refine ⟨fun g => rfl, fun N g hN => ⟨?_, ?_⟩, fun bs hbs => ?_⟩
  · rw [decodeWith_eq_map_take N g hN, List.length_map, List.length_take,
      toBytes_length (bits g).length (bits g) le_rfl, Nat.min_comm]
  · intro g' hpre
    rw [decodeWith_eq_map_take N g hN, decodeWith_eq_map_take N g' hN,
      toBytes_take_eq (bits g).length (bits g) le_rfl N,
      toBytes_take_eq (bits g').length (bits g') le_rfl N, hpre]
  · have h1 := decodeBytes_eq_map_take bs.length bs le_rfl 0 2 (by omega)
    rw [h1, toBytes_take_eq bs.length bs le_rfl 2]
    norm_num at hbs ⊢
    rw [hbs]
    decide

/-- C3 witness: a 9-bit grid decodes under `N = 1` to `min 1 1 = 1`
character, and the concrete 16-bit stream for `0x48, 0x69` decodes under
`N = 2` to `"Hi"`. -/
theorem C3_fixed_count_witness :
    (decodeWith 1 [[[1, 0, 1], [0, 1, 0], [1, 0, 1]]]).length
        = min ((bits [[[1, 0, 1], [0, 1, 0], [1, 0, 1]]]).length / 8) 1 ∧
      decodeBytes 0 2 [0, 1, 0, 0, 1, 0, 0, 0, 0, 1, 1, 0, 1, 0, 0, 1]
        = ['H', 'i'] :=
  ⟨(C3_fixed_count.2.1 1 [[[1, 0, 1], [0, 1, 0], [1, 0, 1]]] (by decide)).1,
    C3_fixed_count.2.2 [0, 1, 0, 0, 1, 0, 0, 0, 0, 1, 1, 0, 1, 0, 0, 1] (by decide)⟩

/-- C4: for a rectangular grid with `P` pixels per row and `C` channels per
pixel, the scanned bit string has length `rows * P * C`, and its bit at
linear position `(r*P + p)*C + c` — row-major, then pixel-major, then
channel-major — is the LSB (bit position 0, normalized to 0/1) of channel
`c` of pixel `p` of row `r`.  The script scans every channel of every pixel,
i.e. the configured channel subset is the full channel list. -/
theorem C4_scan_order (g : PixelGrid) (P C : Nat)
    (hP : ∀ row ∈ g, row.length = P)
    (hC : ∀ row ∈ g, ∀ pixel ∈ row, pixel.length = C) :
    (bits g).length = g.length * P * C ∧
      ∀ (r p c : Nat), p < P → c < C →
        (bits g)[(r * P + p) * C + c]? =
          (g[r]?.bind fun row => row[p]?.bind fun pixel => pixel[c]?).map lsb := by
  refine ⟨bits_length_rect g P C hP hC, fun r p c hp hc => ?_⟩
  exact bits_getElem?_rect g P C hP hC r p c hp hc

/-- C4 witness: a 2×2×2 grid has 8 bits, and bit `(1*2+0)*2+1 = 5` is the
LSB of channel 1 of pixel 0 of row 1. -/
theorem C4_scan_order_witness :
    (bits [[[0, 1], [1, 0]], [[1, 1], [0, 0]]]).length = 2 * 2 * 2 ∧
      (bits [[[0, 1], [1, 0]], [[1, 1], [0, 0]]])[(1 * 2 + 0) * 2 + 1]? =
        (([[[0, 1], [1, 0]], [[1, 1], [0, 0]]] : PixelGrid)[1]?.bind
          fun row => row[0]?.bind fun pixel => pixel[1]?).map lsb :=
  ⟨(C4_scan_order [[[0, 1], [1, 0]], [[1, 1], [0, 0]]] 2 2 (by decide) (by decide)).1,
    (C4_scan_order [[[0, 1], [1, 0]], [[1, 1], [0, 0]]] 2 2 (by decide) (by decide)).2
      1 0 1 (by decide) (by decide)⟩

/-- C5: every assembled byte is in `0..255`; the character appended for it is
`chr` of exactly that value (Latin-1: its Unicode code point equals the byte
value), and this holds for control-range and non-printable bytes alike — no
error, no filtering. -/
theorem C5_latin1 (g : PixelGrid) (k b : Nat) (hk : k < 16)
    (hb : (toBytes (bits g))[k]? = some b) :
    b < 256 ∧ (Char.ofNat b).toNat = b ∧ (message g)[k]? = some (Char.ofNat b) := by
  have hmem : b ∈ toBytes (bits g) := List.getElem?_mem hb
  have hlt : b < 256 :=
    toBytes_mem_lt (bits g).length (bits g) le_rfl (bits_le_one g) b hmem
  refine ⟨hlt, toNat_charOfNat hlt, ?_⟩
  rw [message_eq_map_take, List.getElem?_map, List.getElem?_take_of_lt hk, hb]
  rfl

/-- C5 witness: a grid assembling the non-printable byte `0xF0 = 240` appends
the character with code point 240. -/
theorem C5_latin1_witness :
    240 < 256 ∧ (Char.ofNat 240).toNat = 240 ∧
      (message [[[1, 1, 1], [1, 0, 0], [0, 0, 0]]])[0]? = some (Char.ofNat 240) :=
  C5_latin1 [[[1, 1, 1], [1, 0, 0], [0, 0, 0]]] 0 240 (by decide) (by decide)

/-- C6: any grid with fewer than 8 scannable bits decodes to the empty
message (the byte-assembly loop exits on its first iteration because the
stream is exhausted, emitting no partial byte); in particular the empty grid
does. -/
theorem C6_exhaustion :
    (∀ g : PixelGrid, (bits g).length < 8 → message g = []) ∧
      message ([] : PixelGrid) = [] :=
  ⟨fun _ h => decodeBytes_nil_of_lt 0 16 h, rfl⟩

/-- C6 witness: a grid with 5 scannable bits (one 3-channel and one 2-channel
pixel) decodes to the empty message. -/
theorem C6_exhaustion_witness :
    (bits [[[0, 1, 0], [1, 1]]]).length < 8 ∧ message [[[0, 1, 0], [1, 1]]] = [] :=
  ⟨by decide, C6_exhaustion.1 [[[0, 1, 0], [1, 1]]] (by decide)⟩

/-- C7, counterexample: a grid containing the out-of-range channel values
`300`, `-1` and `256` is decoded without any error to the message `"J"` —
no `InvalidPixelValueError` exists in the script; `channel & 1` accepts any
integer. -/
theorem C7_counterexample :
    (255 < (300 : Int)) ∧ ((-1 : Int) < 0) ∧
      message [[[300, -1, 256], [2, 3, 4], [5, 6, 7]]] = ['J'] := by
  decide

/-- C7, amended: channel values are never range-validated; decoding is total
and depends only on each channel value's residue mod 2, so reducing every
channel mod 2 (mapping any out-of-range or negative value into `{0, 1}`)
leaves the message unchanged. -/
theorem C7_no_validation : ∀ g : PixelGrid,
    message (g.map fun row => row.map fun pixel => pixel.map fun c => c % 2)
      = message g := by
  have hpixel : ∀ pixel : Pixel,
      (pixel.map fun c => c % 2).map lsb = pixel.map lsb := by
    intro pixel
    rw [List.map_map]
    exact List.map_congr_left fun c _ => lsb_emod c
  have hrow : ∀ row : Row,
      ((row.map fun pixel => pixel.map fun c => c % 2).map
        fun pixel => pixel.map lsb).flatten
        = (row.map fun pixel => pixel.map lsb).flatten := by
    intro row
    rw [List.map_map]
    congr 1
    exact List.map_congr_left fun pixel _ => hpixel pixel
  intro g
  have hbits :
      bits (g.map fun row => row.map fun pixel => pixel.map fun c => c % 2)
        = bits g := by
    simp only [bits, List.map_map]
    congr 1
    exact List.map_congr_left fun row _ => hrow row
  unfold message
  rw [hbits]

/-- C8, counterexample: a grid that is neither rectangular (rows of 2 and 1
pixels) nor of uniform channel depth (pixels of 3, 2 and 4 channels) is
silently tolerated and decodes to `"H"` — no `InvalidGridError` exists in
the script. -/
theorem C8_counterexample :
    ([[[0, 1, 0], [0, 1]], [[0, 0, 0, 0]]] : PixelGrid).map
        (fun row => row.map List.length) = [[3, 2], [4]] ∧
      message [[[0, 1, 0], [0, 1]], [[0, 0, 0, 0]]] = ['H'] := by
  decide

/-- C8, amended: no shape validation occurs: for every grid, rectangular or
not, each channel value of each pixel contributes exactly one bit, so the
scanned bit count is the total channel count over all pixels of all rows. -/
theorem C8_no_shape_validation : ∀ g : PixelGrid,
    (bits g).length = (g.map fun row => (row.map List.length).sum).sum := by
  intro g
  simp only [bits, List.length_flatten, List.map_map]
  congr 1
  apply List.map_congr_left
  intro row _
  show ((row.map fun pixel => pixel.map lsb).flatten).length
    = (row.map List.length).sum
  rw [List.length_flatten, List.map_map]
  congr 1
  apply List.map_congr_left
  intro pixel _
  simp

set_option maxRecDepth 8000 in
/-- C9, counterexample: the bit-extraction loop runs over the whole grid
before any byte is assembled: a 45-pixel RGB grid yields all `135` bits even
though the 16-character policy is satisfied after `128`; traversal is not
short-circuited (only byte assembly stops). -/
theorem C9_counterexample :
    (bits [List.replicate 45 ([0, 0, 0] : Pixel)]).length = 135 ∧
      (message [List.replicate 45 ([0, 0, 0] : Pixel)]).length = 16 ∧
      8 * 16 < 135 := by
  decide

/-- C9, amended: the script materialises the full bit string first; the
fixed-count policy only stops byte assembly, so the message equals what the
decoder produces from just the first `8*16 = 128` extracted bits while all
remaining channels are still scanned. -/
theorem C9_no_short_circuit : ∀ g : PixelGrid,
    message g = decodeBytes 0 16 ((bits g).take (8 * 16)) := by
  intro g
  rw [message_eq_map_take,
    decodeBytes_eq_map_take ((bits g).take (8 * 16)).length _ le_rfl 0 16 (by omega),
    Nat.sub_zero, toBytes_take_eq (bits g).length (bits g) le_rfl 16]

/-- C10: the decoded message is a function of channel-value parities only:
two grids of identical shape whose corresponding channel values are congruent
mod 2 — including negative values and values above 255, all accepted without
error — decode to the identical message. -/
theorem C10_parity_only (g h : PixelGrid) (hc : gridCong g h = true) :
    message g = message h := by
  unfold message
  rw [gridCong_bits g h hc]

/-- C10 witness: the out-of-range grid `[[300,-1,2],[3,4,5],[6,7,8]]` and the
0/1 grid `[[0,1,0],[1,0,1],[0,1,0]]` are parity-congruent and decode to the
same message. -/
theorem C10_parity_only_witness :
    gridCong [[[300, -1, 2], [3, 4, 5], [6, 7, 8]]]
        [[[0, 1, 0], [1, 0, 1], [0, 1, 0]]] = true ∧
      message [[[300, -1, 2], [3, 4, 5], [6, 7, 8]]]
        = message [[[0, 1, 0], [1, 0, 1], [0, 1, 0]]] :=
  ⟨by decide,
    C10_parity_only [[[300, -1, 2], [3, 4, 5], [6, 7, 8]]]
      [[[0, 1, 0], [1, 0, 1], [0, 1, 0]]] (by decide)⟩

end PrimePy
